import Mathlib

/-!
Shallow embedding of `src/src/minesweeper.rs` (a Minesweeper rule engine).

State: the Rust struct `Minesweeper` holds `width`, `height`, three
`HashSet<Position>` fields (`open_fields`, `mines`, `flagged_fields`) and a
`lost : bool`.  Sets are modelled as `Finset (Nat × Nat)`; `usize` values are
`Nat` (Rust's `width - 1` in `iter_neighbors` matches Lean's truncated
subtraction for `width ≥ 1`, the regime every claim about neighbours assumes).
The `u8` cast in `neighboring_mines` cannot wrap (a cell has at most 8
neighbours), so the count is a plain `Nat`.

The recursive `Minesweeper::open` is embedded as a worklist function
`openList` plus a non-recursive top layer `openCell`:

* every recursive call in the Rust source (both the chord loop and the
  flood-fill loop) is guarded by `!open_fields.contains(&neighbor)` at the
  call site, so a recursive call never enters the chord branch; its body is
  exactly: skip when `lost` or flagged, otherwise insert into `open_fields`,
  set `lost` on a mine, and when the neighbouring-mine count is zero recurse
  into the neighbours not yet open.  `openList g l` performs those calls for
  the pending positions `l` in depth-first order — `openList g (q :: rest)`
  first runs the whole cascade rooted at `q` and then continues with `rest`
  on the resulting state, which is precisely what the Rust call stack does.
  The chord loop's extra `!flagged_fields.contains(&neighbor)` guard is
  subsumed by the callee's own `lost || flagged` check on the unchanged
  state, so both loops reduce to the same per-element step.
* `openCell` is `Minesweeper::open` itself: the chord branch (position
  already open), the blocked branch (`lost` or flagged), and the normal open
  with its mine / flood sub-cases, returning `Option OpenResult` alongside
  the new state.

`Minesweeper::new`'s mine-placement loop draws random positions until the
set reaches `mine_count`; the random source is a stream `rnd : Nat → Position`
and the unbounded `while` is given explicit fuel (`placeMines`), returning
`none` when the fuel is exhausted with the loop still running.  `openCellF` /
`openListF` are the same fuel-indexed treatment of `open`, used to state that
the recursion terminates within a bound derived from the board size.
-/

abbrev Position := Nat × Nat

inductive OpenResult where
  | Mine : OpenResult
  | NoMine : Nat → OpenResult
deriving DecidableEq

structure Minesweeper where
  width : Nat
  height : Nat
  open_fields : Finset Position
  mines : Finset Position
  flagged_fields : Finset Position
  lost : Bool
deriving DecidableEq

/-- Rust's inclusive range `a..=b` as a list (empty when `b < a`). -/
def rangeIncl (a b : Nat) : List Nat := List.range' a (b + 1 - a)

/-- `Minesweeper::iter_neighbors`: the Moore neighbourhood of `(x, y)`
clipped to the board, excluding the position itself, exactly as the Rust
iterator chain `(x.max(1)-1 ..= (x+1).min(width-1))` × the same for `y`,
filtered by `pos != (x, y)`. -/
def Minesweeper.iter_neighbors (g : Minesweeper) (p : Position) : List Position :=
  ((rangeIncl (max p.1 1 - 1) (min (p.1 + 1) (g.width - 1))).flatMap fun i =>
    (rangeIncl (max p.2 1 - 1) (min (p.2 + 1) (g.height - 1))).map fun j => (i, j)).filter
    fun q => q ≠ p

/-- `Minesweeper::neighboring_mines`: how many neighbours of `p` are mines. -/
def Minesweeper.neighboring_mines (g : Minesweeper) (p : Position) : Nat :=
  ((g.iter_neighbors p).filter fun q => q ∈ g.mines).length

/-- The rectangle every clipped neighbour lies in; used only as the
termination measure for `openList` (for `width ≥ 1` it is just the board). -/
def Minesweeper.clipRegion (g : Minesweeper) : Finset Position :=
  Finset.range (max g.width 1) ×ˢ Finset.range (max g.height 1)

theorem mem_rangeIncl {a b x : Nat} : x ∈ rangeIncl a b ↔ a ≤ x ∧ x ≤ b := by
  simp only [rangeIncl, List.mem_range'_1]
  omega

/-- The Rust iterator chain is the cartesian product of the two clipped
ranges with the centre filtered out. -/
theorem Minesweeper.iter_neighbors_eq (g : Minesweeper) (p : Position) :
    g.iter_neighbors p =
      (rangeIncl (max p.1 1 - 1) (min (p.1 + 1) (g.width - 1)) ×ˢ
       rangeIncl (max p.2 1 - 1) (min (p.2 + 1) (g.height - 1))).filter
      (fun q => q ≠ p) := rfl

theorem Minesweeper.mem_iter_neighbors {g : Minesweeper} {p q : Position} :
    q ∈ g.iter_neighbors p ↔
      ((max p.1 1 - 1 ≤ q.1 ∧ q.1 ≤ min (p.1 + 1) (g.width - 1)) ∧
       (max p.2 1 - 1 ≤ q.2 ∧ q.2 ≤ min (p.2 + 1) (g.height - 1))) ∧ q ≠ p := by
  obtain ⟨i, j⟩ := q
  rw [Minesweeper.iter_neighbors_eq]
  simp [List.mem_filter, List.mem_product, mem_rangeIncl, and_assoc]

theorem Minesweeper.iter_neighbors_subset_clip {g : Minesweeper} {p q : Position}
    (h : q ∈ g.iter_neighbors p) : q ∈ g.clipRegion := by
  rw [Minesweeper.mem_iter_neighbors] at h
  simp only [Minesweeper.clipRegion, Finset.mem_product, Finset.mem_range]
  omega

theorem Minesweeper.length_iter_neighbors_le (g : Minesweeper) (p : Position) :
    (g.iter_neighbors p).length ≤ 9 := by
  rw [Minesweeper.iter_neighbors_eq]
  have h := List.length_filter_le (fun q => decide (q ≠ p))
    (rangeIncl (max p.1 1 - 1) (min (p.1 + 1) (g.width - 1)) ×ˢ
     rangeIncl (max p.2 1 - 1) (min (p.2 + 1) (g.height - 1)))
  have h2 := List.length_product
    (rangeIncl (max p.1 1 - 1) (min (p.1 + 1) (g.width - 1)))
    (rangeIncl (max p.2 1 - 1) (min (p.2 + 1) (g.height - 1)))
  have hx : (rangeIncl (max p.1 1 - 1) (min (p.1 + 1) (g.width - 1))).length ≤ 3 := by
    simp only [rangeIncl, List.length_range']
    omega
  have hy : (rangeIncl (max p.2 1 - 1) (min (p.2 + 1) (g.height - 1))).length ≤ 3 := by
    simp only [rangeIncl, List.length_range']
    omega
  have : (rangeIncl (max p.1 1 - 1) (min (p.1 + 1) (g.width - 1)) ×ˢ
      rangeIncl (max p.2 1 - 1) (min (p.2 + 1) (g.height - 1))).length ≤ 9 := by
    rw [h2]
    exact Nat.mul_le_mul hx hy |>.trans (by norm_num)
  exact h.trans this

/-- The termination measure of the worklist: ten times the unopened part of
the clip rectangle (plus pending positions) plus the worklist length. -/
def msMeasure (g : Minesweeper) (l : List Position) : Nat :=
  10 * ((g.clipRegion ∪ l.toFinset) \ g.open_fields).card + l.length

theorem toFinset_rest_subset (q : Position) (rest : List Position) :
    rest.toFinset ⊆ (q :: rest).toFinset := by
  intro x hx
  simp only [List.toFinset_cons, Finset.mem_insert]
  exact Or.inr hx

/-- Measure decrease when a worklist element is consumed with no push; the
open set may grow. -/
theorem msMeasure_skip {C O D : Finset Position} (q : Position) (rest : List Position)
    (hO : O ⊆ D) :
    10 * ((C ∪ rest.toFinset) \ D).card + rest.length <
      10 * ((C ∪ (q :: rest).toFinset) \ O).card + (q :: rest).length := by
  have hsub : (C ∪ rest.toFinset) \ D ⊆ (C ∪ (q :: rest).toFinset) \ O :=
    Finset.sdiff_subset_sdiff
      (Finset.union_subset_union (le_refl _) (toFinset_rest_subset q rest)) hO
  have := Finset.card_le_card hsub
  simp only [List.length_cons]
  omega

/-- Measure decrease for the flood push: `q` is freshly opened and leaves the
unopened part of the measure set, paying for at most 9 pushed neighbours. -/
theorem msMeasure_push {C O : Finset Position} (q : Position) (rest nbrs : List Position)
    (hq : q ∉ O) (hn : ∀ x ∈ nbrs, x ∈ C)
    (hlen : nbrs.length ≤ 9) :
    10 * ((C ∪ (nbrs ++ rest).toFinset) \ insert q O).card + (nbrs ++ rest).length <
      10 * ((C ∪ (q :: rest).toFinset) \ O).card + (q :: rest).length := by
  have hqmem : q ∈ (C ∪ (q :: rest).toFinset) \ O := by
    rw [Finset.mem_sdiff]
    exact ⟨Finset.mem_union_right _ (by simp), hq⟩
  have hsub : (C ∪ (nbrs ++ rest).toFinset) \ insert q O ⊆
      ((C ∪ (q :: rest).toFinset) \ O).erase q := by
    intro x hx
    simp only [Finset.mem_sdiff, Finset.mem_union, List.toFinset_append, List.mem_toFinset,
      List.mem_append, Finset.mem_insert, Finset.mem_erase, List.toFinset_cons] at hx ⊢
    obtain ⟨hx1, hx2⟩ := hx
    push_neg at hx2
    refine ⟨hx2.1, ?_, hx2.2⟩
    rcases hx1 with h | h
    · exact Or.inl h
    · rcases h with h | h
      · exact Or.inl (hn x h)
      · exact Or.inr (Or.inr h)
  have hcard := Finset.card_le_card hsub
  rw [Finset.card_erase_of_mem hqmem] at hcard
  have hpos : 0 < ((C ∪ (q :: rest).toFinset) \ O).card := Finset.card_pos.mpr ⟨q, hqmem⟩
  have hlen2 : (nbrs ++ rest).length = nbrs.length + rest.length := List.length_append ..
  simp only [List.length_cons]
  omega

/-- The recursive cascade of `Minesweeper::open`, as a depth-first worklist:
`openList g (q :: rest)` performs the Rust recursive call `self.open(q)`
(which, at every recursion site, is reached only with `q` not yet open, so
its body is the blocked check, the insertion, the mine case and the
flood-fill push) and then processes `rest` on the resulting state. -/
def openList (g : Minesweeper) (l : List Position) : Minesweeper :=
  match l with
  | [] => g
  | q :: rest =>
    if q ∈ g.open_fields then
      openList g rest
    else if g.lost ∨ q ∈ g.flagged_fields then
      openList g rest
    else if q ∈ g.mines then
      openList { g with open_fields := insert q g.open_fields, lost := true } rest
    else if g.neighboring_mines q = 0 then
      openList { g with open_fields := insert q g.open_fields } (g.iter_neighbors q ++ rest)
    else
      openList { g with open_fields := insert q g.open_fields } rest
termination_by 10 * ((g.clipRegion ∪ l.toFinset) \ g.open_fields).card + l.length
decreasing_by
· exact msMeasure_skip q rest (le_refl _)
· exact msMeasure_skip q rest (le_refl _)
· exact msMeasure_skip q rest (Finset.subset_insert _ _)
· rename_i hopen _hblock _hmine _hzero
  exact msMeasure_push q rest (g.iter_neighbors q) hopen
    (fun x hx => Minesweeper.iter_neighbors_subset_clip hx)
    (g.length_iter_neighbors_le q)
· exact msMeasure_skip q rest (Finset.subset_insert _ _)

/-- `Minesweeper::open`.  Branches in source order: the chord case when the
position is already open (recursing, via `openList`, into every neighbour
that is neither flagged nor open when the two counts agree, and returning
`none` either way); the blocked case when `lost` or flagged; otherwise the
normal open with its mine and flood-fill sub-cases. -/
def openCell (g : Minesweeper) (p : Position) : Minesweeper × Option OpenResult :=
  if p ∈ g.open_fields then
    if g.neighboring_mines p =
        ((g.iter_neighbors p).filter fun q => q ∈ g.flagged_fields).length then
      (openList g (g.iter_neighbors p), none)
    else
      (g, none)
  else if g.lost ∨ p ∈ g.flagged_fields then
    (g, none)
  else if p ∈ g.mines then
    ({ g with open_fields := insert p g.open_fields, lost := true }, some OpenResult.Mine)
  else if g.neighboring_mines p = 0 then
    (openList { g with open_fields := insert p g.open_fields } (g.iter_neighbors p),
     some (OpenResult.NoMine (g.neighboring_mines p)))
  else
    ({ g with open_fields := insert p g.open_fields },
     some (OpenResult.NoMine (g.neighboring_mines p)))

/-- `Minesweeper::toggle_flag`: no-op when lost or already open, otherwise
toggle membership of `pos` in `flagged_fields`. -/
def Minesweeper.toggle_flag (g : Minesweeper) (p : Position) : Minesweeper :=
  if g.lost ∨ p ∈ g.open_fields then
    g
  else if p ∈ g.flagged_fields then
    { g with flagged_fields := g.flagged_fields.erase p }
  else
    { g with flagged_fields := insert p g.flagged_fields }

/-- Fuel-indexed version of `openList`, structurally recursive on the fuel:
one unit of fuel is spent per worklist element processed, and `none` means
the cascade was still running when the fuel ran out.  Used to express that
the recursion of `Minesweeper::open` finishes within a board-size bound. -/
def openListF (fuel : Nat) (g : Minesweeper) (l : List Position) : Option Minesweeper :=
  match fuel, l with
  | _, [] => some g
  | 0, _ :: _ => none
  | fuel + 1, q :: rest =>
    if q ∈ g.open_fields then
      openListF fuel g rest
    else if g.lost ∨ q ∈ g.flagged_fields then
      openListF fuel g rest
    else if q ∈ g.mines then
      openListF fuel { g with open_fields := insert q g.open_fields, lost := true } rest
    else if g.neighboring_mines q = 0 then
      openListF fuel { g with open_fields := insert q g.open_fields } (g.iter_neighbors q ++ rest)
    else
      openListF fuel { g with open_fields := insert q g.open_fields } rest

/-- Fuel-indexed version of `openCell` (same branches, cascades run through
`openListF`). -/
def openCellF (fuel : Nat) (g : Minesweeper) (p : Position) :
    Option (Minesweeper × Option OpenResult) :=
  if p ∈ g.open_fields then
    if g.neighboring_mines p =
        ((g.iter_neighbors p).filter fun q => q ∈ g.flagged_fields).length then
      (openListF fuel g (g.iter_neighbors p)).map fun s => (s, none)
    else
      some (g, none)
  else if g.lost ∨ p ∈ g.flagged_fields then
    some (g, none)
  else if p ∈ g.mines then
    some ({ g with open_fields := insert p g.open_fields, lost := true }, some OpenResult.Mine)
  else if g.neighboring_mines p = 0 then
    (openListF fuel { g with open_fields := insert p g.open_fields } (g.iter_neighbors p)).map
      fun s => (s, some (OpenResult.NoMine (g.neighboring_mines p)))
  else
    some ({ g with open_fields := insert p g.open_fields },
          some (OpenResult.NoMine (g.neighboring_mines p)))

/-- The mine-placement `while` loop of `Minesweeper::new`, with the random
source as a stream `rnd` of drawn positions (`rnd k` is the pair produced by
the two `random_range` calls of iteration `k`) and explicit fuel for the
unbounded retry loop: `none` means the loop was still running after `fuel`
iterations. -/
def placeMines (rnd : Nat → Position) (mine_count : Nat) :
    Nat → Nat → Finset Position → Option (Finset Position)
  | 0, _, mines => if mines.card < mine_count then none else some mines
  | fuel + 1, k, mines =>
    if mines.card < mine_count then
      placeMines rnd mine_count fuel (k + 1) (insert (rnd k) mines)
    else
      some mines

/-- `Minesweeper::new`: empty `open_fields` and `flagged_fields`, `lost`
false, and mines drawn by the placement loop (fuel-indexed like the loop). -/
def Minesweeper.new (rnd : Nat → Position) (width height mine_count fuel : Nat) :
    Option Minesweeper :=
  (placeMines rnd mine_count fuel 0 ∅).map fun m =>
    { width := width, height := height, open_fields := ∅, mines := m,
      flagged_fields := ∅, lost := false }

/-- Cells the flood fill actually reaches from `p`: chains of adjacent cells
in which every link leaves a cell with zero neighbouring mines and every cell
after `p` is neither flagged nor already open in the starting state. -/
inductive FloodReach (g : Minesweeper) (p : Position) : Position → Prop where
  | refl : FloodReach g p p
  | step {q r : Position} : FloodReach g p q → g.neighboring_mines q = 0 →
      r ∈ g.iter_neighbors q → r ∉ g.flagged_fields → r ∉ g.open_fields →
      FloodReach g p r

/-- Connectivity exactly as the flood-fill claim words it: a chain of
adjacent cells each having zero neighbouring mines, with no condition on
flags or on already-open cells.  Written from the claim's words, to be
compared with what the code does. -/
inductive ZeroChain (g : Minesweeper) (p : Position) : Position → Prop where
  | refl : ZeroChain g p p
  | step {q r : Position} : ZeroChain g p q → g.neighboring_mines q = 0 →
      g.neighboring_mines r = 0 → r ∈ g.iter_neighbors q → ZeroChain g p r

/-- A corner cell of the grid. -/
def CornerCell (g : Minesweeper) (p : Position) : Prop :=
  (p.1 = 0 ∨ p.1 = g.width - 1) ∧ (p.2 = 0 ∨ p.2 = g.height - 1)

/-- A cell on the boundary of the grid. -/
def BoundaryCell (g : Minesweeper) (p : Position) : Prop :=
  p.1 = 0 ∨ p.1 = g.width - 1 ∨ p.2 = 0 ∨ p.2 = g.height - 1

/-- A non-corner boundary cell. -/
def EdgeCell (g : Minesweeper) (p : Position) : Prop :=
  BoundaryCell g p ∧ ¬ CornerCell g p

/-- A cell strictly inside the grid. -/
def InteriorCell (g : Minesweeper) (p : Position) : Prop :=
  ¬ BoundaryCell g p

/-- Concrete boards used to instantiate the theorems below. -/
def bLost : Minesweeper :=
  { width := 2, height := 2, open_fields := {(0, 0)}, mines := {(1, 1)},
    flagged_fields := {(0, 1)}, lost := true }

def bFresh : Minesweeper :=
  { width := 2, height := 2, open_fields := ∅, mines := {(0, 0)},
    flagged_fields := ∅, lost := false }

def bTiny : Minesweeper :=
  { width := 1, height := 1, open_fields := ∅, mines := ∅,
    flagged_fields := ∅, lost := false }

def bChord : Minesweeper :=
  { width := 2, height := 1, open_fields := {(0, 0)}, mines := ∅,
    flagged_fields := ∅, lost := false }

def bNine : Minesweeper :=
  { width := 3, height := 3, open_fields := ∅, mines := ∅,
    flagged_fields := ∅, lost := false }

/-- A 3×1 board with no mines and a flag on the middle cell: the flood fill
started at `(0,0)` is stopped by the flag, although `(2,0)` is connected to
`(0,0)` through a chain of zero-count cells. -/
def bFlagBlock : Minesweeper :=
  { width := 3, height := 1, open_fields := ∅, mines := ∅,
    flagged_fields := {(1, 0)}, lost := false }

def bOut : Minesweeper :=
  { width := 1, height := 1, open_fields := ∅, mines := {(0, 0)},
    flagged_fields := ∅, lost := false }

/- Lemmas about the embedding. -/

theorem openList_fields (g : Minesweeper) (l : List Position) :
    (openList g l).width = g.width ∧ (openList g l).height = g.height ∧
    (openList g l).mines = g.mines ∧ (openList g l).flagged_fields = g.flagged_fields := by
  induction g, l using openList.induct with
  | case1 g => simp [openList]
  | case2 g q rest h ih => rw [openList]; simpa [h] using ih
  | case3 g q rest h1 h2 ih => rw [openList]; simpa [h1, h2] using ih
  | case4 g q rest h1 h2 h3 ih => rw [openList]; simpa [h1, h2, h3] using ih
  | case5 g q rest h1 h2 h3 h4 ih => rw [openList]; simpa [h1, h2, h3, h4] using ih
  | case6 g q rest h1 h2 h3 h4 ih => rw [openList]; simpa [h1, h2, h3, h4] using ih

theorem openList_open_mono (g : Minesweeper) (l : List Position) :
    g.open_fields ⊆ (openList g l).open_fields := by
  induction g, l using openList.induct with
  | case1 g => simp [openList]
  | case2 g q rest h ih => rw [openList]; simpa [h] using ih
  | case3 g q rest h1 h2 ih => rw [openList]; simpa [h1, h2] using ih
  | case4 g q rest h1 h2 h3 ih =>
    rw [openList]
    simp only [h1, h2, h3, if_true, if_false, ite_true, ite_false]
    exact (Finset.subset_insert q g.open_fields).trans ih
  | case5 g q rest h1 h2 h3 h4 ih =>
    rw [openList]
    simp only [h1, h2, h3, h4, if_true, if_false, ite_true, ite_false]
    exact (Finset.subset_insert q g.open_fields).trans ih
  | case6 g q rest h1 h2 h3 h4 ih =>
    rw [openList]
    simp only [h1, h2, h3, h4, if_true, if_false, ite_true, ite_false]
    exact (Finset.subset_insert q g.open_fields).trans ih

theorem openList_of_lost (g : Minesweeper) (l : List Position) (h : g.lost = true) :
    openList g l = g := by
  induction l with
  | nil => simp [openList]
  | cons q rest ih =>
    rw [openList]
    by_cases h1 : q ∈ g.open_fields
    · simpa [h1] using ih
    · simpa [h1, h] using ih

theorem openList_lost_mono (g : Minesweeper) (l : List Position) (h : g.lost = true) :
    (openList g l).lost = true := by
  rw [openList_of_lost g l h]; exact h

theorem neighboring_mines_eq_zero {g : Minesweeper} {q : Position} :
    g.neighboring_mines q = 0 ↔ ∀ r ∈ g.iter_neighbors q, r ∉ g.mines := by
  simp [Minesweeper.neighboring_mines, List.length_eq_zero, List.filter_eq_nil_iff]

theorem openList_lost_false (g : Minesweeper) (l : List Position) :
    g.lost = false → (∀ q ∈ l, q ∉ g.mines) → (openList g l).lost = false := by
  induction g, l using openList.induct with
  | case1 g => intro h _; simpa [openList] using h
  | case2 g q rest h ih =>
    intro hl hm
    rw [openList]
    simp only [h, if_true]
    exact ih hl fun x hx => hm x (List.mem_cons_of_mem q hx)
  | case3 g q rest h1 h2 ih =>
    intro hl hm
    rw [openList]
    simp only [h1, h2, if_true, if_false, ite_true, ite_false]
    exact ih hl fun x hx => hm x (List.mem_cons_of_mem q hx)
  | case4 g q rest h1 h2 h3 ih =>
    intro hl hm
    exact absurd h3 (hm q (List.mem_cons_self q rest))
  | case5 g q rest h1 h2 h3 h4 ih =>
    intro hl hm
    rw [openList]
    simp only [h1, h2, h3, h4, if_true, if_false, ite_true, ite_false]
    refine ih hl fun x hx => ?_
    rcases List.mem_append.mp hx with hx | hx
    · exact neighboring_mines_eq_zero.mp h4 x hx
    · exact hm x (List.mem_cons_of_mem q hx)
  | case6 g q rest h1 h2 h3 h4 ih =>
    intro hl hm
    rw [openList]
    simp only [h1, h2, h3, h4, if_true, if_false, ite_true, ite_false]
    exact ih hl fun x hx => hm x (List.mem_cons_of_mem q hx)

theorem openList_new_open_unflagged (g : Minesweeper) (l : List Position) :
    ∀ x ∈ (openList g l).open_fields, x ∈ g.open_fields ∨ x ∉ g.flagged_fields := by
  induction g, l using openList.induct with
  | case1 g => intro x hx; exact Or.inl (by simpa [openList] using hx)
  | case2 g q rest h ih =>
    intro x hx
    have hstep : openList g (q :: rest) = openList g rest := by
      rw [openList]; simp [h]
    rw [hstep] at hx
    exact ih x hx
  | case3 g q rest h1 h2 ih =>
    intro x hx
    have hstep : openList g (q :: rest) = openList g rest := by
      rw [openList]; simp [h1, h2]
    rw [hstep] at hx
    exact ih x hx
  | case4 g q rest h1 h2 h3 ih =>
    intro x hx
    push_neg at h2
    have hstep : openList g (q :: rest) =
        openList { g with open_fields := insert q g.open_fields, lost := true } rest := by
      rw [openList]; simp [h1, h2, h3]
    rw [hstep] at hx
    rcases ih x hx with hxo | hxf
    · rcases Finset.mem_insert.mp hxo with rfl | hxo
      · exact Or.inr h2.2
      · exact Or.inl hxo
    · exact Or.inr hxf
  | case5 g q rest h1 h2 h3 h4 ih =>
    intro x hx
    push_neg at h2
    have hstep : openList g (q :: rest) =
        openList { g with open_fields := insert q g.open_fields } (g.iter_neighbors q ++ rest) := by
      rw [openList]; simp [h1, h2, h3, h4]
    rw [hstep] at hx
    rcases ih x hx with hxo | hxf
    · rcases Finset.mem_insert.mp hxo with rfl | hxo
      · exact Or.inr h2.2
      · exact Or.inl hxo
    · exact Or.inr hxf
  | case6 g q rest h1 h2 h3 h4 ih =>
    intro x hx
    push_neg at h2
    have hstep : openList g (q :: rest) =
        openList { g with open_fields := insert q g.open_fields } rest := by
      rw [openList]; simp [h1, h2, h3, h4]
    rw [hstep] at hx
    rcases ih x hx with hxo | hxf
    · rcases Finset.mem_insert.mp hxo with rfl | hxo
      · exact Or.inr h2.2
      · exact Or.inl hxo
    · exact Or.inr hxf

theorem openList_closure (g : Minesweeper) (l : List Position) :
    (openList g l).lost = false →
    ∀ q ∈ l, q ∉ g.flagged_fields → q ∈ (openList g l).open_fields := by
  induction g, l using openList.induct with
  | case1 g => intro _ q hq; exact absurd hq (List.not_mem_nil q)
  | case2 g q rest h ih =>
    intro hF x hx hxf
    have hstep : openList g (q :: rest) = openList g rest := by
      rw [openList]; simp [h]
    rw [hstep] at hF ⊢
    rcases List.mem_cons.mp hx with rfl | hx
    · exact openList_open_mono g rest h
    · exact ih hF x hx hxf
  | case3 g q rest h1 h2 ih =>
    intro hF x hx hxf
    have hstep : openList g (q :: rest) = openList g rest := by
      rw [openList]; simp [h1, h2]
    rw [hstep] at hF ⊢
    rcases h2 with hl | hqf
    · rw [openList_of_lost g rest hl, hl] at hF
      exact absurd hF (by simp)
    · rcases List.mem_cons.mp hx with rfl | hx
      · exact absurd hqf hxf
      · exact ih hF x hx hxf
  | case4 g q rest h1 h2 h3 ih =>
    intro hF x hx hxf
    have hstep : openList g (q :: rest) =
        openList { g with open_fields := insert q g.open_fields, lost := true } rest := by
      rw [openList]; simp [h1, h2, h3]
    rw [hstep] at hF
    rw [openList_lost_mono _ rest rfl] at hF
    exact absurd hF (by simp)
  | case5 g q rest h1 h2 h3 h4 ih =>
    intro hF x hx hxf
    have hstep : openList g (q :: rest) =
        openList { g with open_fields := insert q g.open_fields } (g.iter_neighbors q ++ rest) := by
      rw [openList]; simp [h1, h2, h3, h4]
    rw [hstep] at hF ⊢
    rcases List.mem_cons.mp hx with rfl | hx
    · exact openList_open_mono _ _ (Finset.mem_insert_self x g.open_fields)
    · exact ih hF x (List.mem_append_right _ hx) hxf
  | case6 g q rest h1 h2 h3 h4 ih =>
    intro hF x hx hxf
    have hstep : openList g (q :: rest) =
        openList { g with open_fields := insert q g.open_fields } rest := by
      rw [openList]; simp [h1, h2, h3, h4]
    rw [hstep] at hF ⊢
    rcases List.mem_cons.mp hx with rfl | hx
    · exact openList_open_mono _ _ (Finset.mem_insert_self x g.open_fields)
    · exact ih hF x hx hxf

theorem openList_flood_closure (g : Minesweeper) (l : List Position) :
    (openList g l).lost = false →
    ∀ x, x ∈ (openList g l).open_fields → x ∉ g.open_fields →
      g.neighboring_mines x = 0 →
      ∀ r ∈ g.iter_neighbors x, r ∉ g.flagged_fields →
        r ∈ (openList g l).open_fields := by
  induction g, l using openList.induct with
  | case1 g =>
    intro _ x hx hxo
    exact absurd (by simpa [openList] using hx) hxo
  | case2 g q rest h ih =>
    intro hF x hx hxo hxz r hr hrf
    have hstep : openList g (q :: rest) = openList g rest := by
      rw [openList]; simp [h]
    rw [hstep] at hF hx ⊢
    exact ih hF x hx hxo hxz r hr hrf
  | case3 g q rest h1 h2 ih =>
    intro hF x hx hxo hxz r hr hrf
    have hstep : openList g (q :: rest) = openList g rest := by
      rw [openList]; simp [h1, h2]
    rw [hstep] at hF hx ⊢
    exact ih hF x hx hxo hxz r hr hrf
  | case4 g q rest h1 h2 h3 ih =>
    intro hF x hx hxo hxz r hr hrf
    have hstep : openList g (q :: rest) =
        openList { g with open_fields := insert q g.open_fields, lost := true } rest := by
      rw [openList]; simp [h1, h2, h3]
    rw [hstep] at hF
    rw [openList_lost_mono _ rest rfl] at hF
    exact absurd hF (by simp)
  | case5 g q rest h1 h2 h3 h4 ih =>
    intro hF x hx hxo hxz r hr hrf
    have hstep : openList g (q :: rest) =
        openList { g with open_fields := insert q g.open_fields } (g.iter_neighbors q ++ rest) := by
      rw [openList]; simp [h1, h2, h3, h4]
    rw [hstep] at hF hx ⊢
    by_cases hxq : x = q
    · subst hxq
      exact openList_closure _ _ hF r (List.mem_append_left _ hr) hrf
    · have hxo2 : x ∉ insert q g.open_fields := by
        rw [Finset.mem_insert]
        rintro (rfl | hc)
        · exact hxq rfl
        · exact hxo hc
      exact ih hF x hx hxo2 hxz r hr hrf
  | case6 g q rest h1 h2 h3 h4 ih =>
    intro hF x hx hxo hxz r hr hrf
    have hstep : openList g (q :: rest) =
        openList { g with open_fields := insert q g.open_fields } rest := by
      rw [openList]; simp [h1, h2, h3, h4]
    rw [hstep] at hF hx ⊢
    by_cases hxq : x = q
    · subst hxq
      exact absurd hxz h4
    · have hxo2 : x ∉ insert q g.open_fields := by
        rw [Finset.mem_insert]
        rintro (rfl | hc)
        · exact hxq rfl
        · exact hxo hc
      exact ih hF x hx hxo2 hxz r hr hrf

theorem openListF_complete :
    ∀ (fuel : Nat) (g : Minesweeper) (l : List Position),
      msMeasure g l ≤ fuel → openListF fuel g l = some (openList g l) := by
  intro fuel
  induction fuel with
  | zero =>
    intro g l h
    have hlen : l.length = 0 := by simp only [msMeasure] at h; omega
    obtain rfl := List.length_eq_zero.mp hlen
    simp [openListF, openList]
  | succ fuel ih =>
    intro g l h
    cases l with
    | nil => simp [openListF, openList]
    | cons q rest =>
      simp only [msMeasure] at h
      by_cases h1 : q ∈ g.open_fields
      · rw [openList]
        simp only [openListF, h1, if_true, ite_true]
        refine ih g rest ?_
        have hlt := msMeasure_skip (C := g.clipRegion) (D := g.open_fields) q rest (le_refl _)
        simp only [msMeasure]
        omega
      · by_cases h2 : g.lost = true ∨ q ∈ g.flagged_fields
        · rw [openList]
          simp only [openListF, h1, h2, if_true, if_false, ite_true, ite_false]
          refine ih g rest ?_
          have hlt := msMeasure_skip (C := g.clipRegion) (D := g.open_fields) q rest (le_refl _)
          simp only [msMeasure]
          omega
        · by_cases h3 : q ∈ g.mines
          · rw [openList]
            simp only [openListF, h1, h2, h3, if_true, if_false, ite_true, ite_false]
            refine ih _ rest ?_
            have hlt := msMeasure_skip (C := g.clipRegion) (D := insert q g.open_fields) q rest
              (Finset.subset_insert _ _)
            show 10 * ((g.clipRegion ∪ rest.toFinset) \ insert q g.open_fields).card +
              rest.length ≤ fuel
            omega
          · by_cases h4 : g.neighboring_mines q = 0
            · rw [openList]
              simp only [openListF, h1, h2, h3, h4, if_true, if_false, ite_true, ite_false]
              refine ih _ (g.iter_neighbors q ++ rest) ?_
              have hlt := msMeasure_push (C := g.clipRegion) (O := g.open_fields) q rest
                (g.iter_neighbors q) h1 (fun x hx => Minesweeper.iter_neighbors_subset_clip hx)
                (g.length_iter_neighbors_le q)
              show 10 * ((g.clipRegion ∪ (g.iter_neighbors q ++ rest).toFinset) \
                insert q g.open_fields).card + (g.iter_neighbors q ++ rest).length ≤ fuel
              omega
            · rw [openList]
              simp only [openListF, h1, h2, h3, h4, if_true, if_false, ite_true, ite_false]
              refine ih _ rest ?_
              have hlt := msMeasure_skip (C := g.clipRegion) (D := insert q g.open_fields) q rest
                (Finset.subset_insert _ _)
              show 10 * ((g.clipRegion ∪ rest.toFinset) \ insert q g.open_fields).card +
                rest.length ≤ fuel
              omega

theorem openCellF_complete (fuel : Nat) (g : Minesweeper) (p : Position)
    (h : 10 * g.clipRegion.card + 9 ≤ fuel) :
    openCellF fuel g p = some (openCell g p) := by
  have key : ∀ (g' : Minesweeper), g'.clipRegion = g.clipRegion →
      msMeasure g' (g.iter_neighbors p) ≤ fuel := by
    intro g' hc
    simp only [msMeasure, hc]
    have hsub : g.clipRegion ∪ (g.iter_neighbors p).toFinset = g.clipRegion := by
      apply Finset.union_eq_left.mpr
      intro x hx
      exact Minesweeper.iter_neighbors_subset_clip (List.mem_toFinset.mp hx)
    rw [hsub]
    have h1 := Finset.card_le_card (Finset.sdiff_subset (s := g.clipRegion) (t := g'.open_fields))
    have h2 := g.length_iter_neighbors_le p
    omega
  unfold openCellF openCell
  by_cases h1 : p ∈ g.open_fields
  · by_cases h2 : g.neighboring_mines p =
        ((g.iter_neighbors p).filter fun q => q ∈ g.flagged_fields).length
    · simp only [h1, h2, if_true, ite_true]
      rw [openListF_complete fuel g _ (key g rfl)]
      simp
    · simp [h1, h2]
  · by_cases h2 : g.lost = true ∨ p ∈ g.flagged_fields
    · simp [h1, h2]
    · by_cases h3 : p ∈ g.mines
      · simp [h1, h2, h3]
      · by_cases h4 : g.neighboring_mines p = 0
        · simp only [h1, h2, h3, h4, if_true, if_false, ite_true, ite_false]
          rw [openListF_complete fuel { g with open_fields := insert p g.open_fields }
            (g.iter_neighbors p) (key _ rfl)]
          simp
        · simp [h1, h2, h3, h4]

theorem iter_neighbors_nodup (g : Minesweeper) (p : Position) :
    (g.iter_neighbors p).Nodup := by
  rw [Minesweeper.iter_neighbors_eq]
  exact ((List.nodup_range' _ _).product (List.nodup_range' _ _)).filter _

theorem length_filter_ne {l : List Position} (hnd : l.Nodup) {p : Position} (hp : p ∈ l) :
    (l.filter fun q => q ≠ p).length = l.length - 1 := by
  have heq : (l.filter fun q => q ≠ p) = l.erase p := by
    rw [hnd.erase_eq_filter p]
    apply List.filter_congr
    intro x _
    rw [Bool.eq_iff_iff]
    simp
  rw [heq, List.length_erase_of_mem hp]

theorem length_iter_neighbors (g : Minesweeper) (p : Position)
    (hw : 1 ≤ g.width) (hh : 1 ≤ g.height) (hx : p.1 < g.width) (hy : p.2 < g.height) :
    (g.iter_neighbors p).length + 1 =
      (min (p.1 + 1) (g.width - 1) + 1 - (max p.1 1 - 1)) *
      (min (p.2 + 1) (g.height - 1) + 1 - (max p.2 1 - 1)) := by
  have hmem : p ∈ rangeIncl (max p.1 1 - 1) (min (p.1 + 1) (g.width - 1)) ×ˢ
      rangeIncl (max p.2 1 - 1) (min (p.2 + 1) (g.height - 1)) := by
    obtain ⟨a, b⟩ := p
    apply List.mem_product.mpr
    constructor
    · rw [mem_rangeIncl]; simp only []; omega
    · rw [mem_rangeIncl]; simp only []; omega
  have hnd : (rangeIncl (max p.1 1 - 1) (min (p.1 + 1) (g.width - 1)) ×ˢ
      rangeIncl (max p.2 1 - 1) (min (p.2 + 1) (g.height - 1))).Nodup :=
    (List.nodup_range' _ _).product (List.nodup_range' _ _)
  have hpos : 0 < (rangeIncl (max p.1 1 - 1) (min (p.1 + 1) (g.width - 1)) ×ˢ
      rangeIncl (max p.2 1 - 1) (min (p.2 + 1) (g.height - 1))).length :=
    List.length_pos.mpr (List.ne_nil_of_mem hmem)
  rw [Minesweeper.iter_neighbors_eq, length_filter_ne hnd hmem]
  rw [List.length_product] at hpos ⊢
  simp only [rangeIncl, List.length_range'] at hpos ⊢
  omega

theorem inter_empty_of (S T : Finset Position) (h : ∀ x ∈ S, x ∉ T) : S ∩ T = ∅ := by
  rw [Finset.eq_empty_iff_forall_not_mem]
  intro x hx
  rw [Finset.mem_inter] at hx
  exact h x hx.1 hx.2

/-- C1: once `lost` is true, `open` returns `none` and leaves the whole
state (`opened`, `flagged`, `mines`, `lost`) unchanged — including when the
position is already open, where the chord branch runs and all its recursive
calls no-op — and `toggle_flag` leaves the state unchanged. -/
theorem C1_lost_freezes_state (g : Minesweeper) (p : Position) (h : g.lost = true) :
    openCell g p = (g, none) ∧ g.toggle_flag p = g := by
  constructor
  · unfold openCell
    by_cases h1 : p ∈ g.open_fields
    · by_cases h2 : g.neighboring_mines p =
          ((g.iter_neighbors p).filter fun q => q ∈ g.flagged_fields).length
      · simp [h1, h2, openList_of_lost g _ h]
      · simp [h1, h2]
    · simp [h1, h]
  · unfold Minesweeper.toggle_flag
    simp [h]

/-- C2: a single `open` or `toggle_flag` call, from any state in which
`opened` and `flagged` are disjoint, preserves `opened ∩ flagged = ∅`
(the flood fill recurses into flagged neighbours but never opens them). -/
theorem C2_disjoint_preserved (g : Minesweeper) (p : Position)
    (h : g.open_fields ∩ g.flagged_fields = ∅) :
    (openCell g p).1.open_fields ∩ (openCell g p).1.flagged_fields = ∅ ∧
    (g.toggle_flag p).open_fields ∩ (g.toggle_flag p).flagged_fields = ∅ := by
  have hdis : ∀ x, x ∈ g.open_fields → x ∉ g.flagged_fields := by
    intro x hx hxf
    have hmem : x ∈ g.open_fields ∩ g.flagged_fields := Finset.mem_inter.mpr ⟨hx, hxf⟩
    rw [h] at hmem
    exact absurd hmem (Finset.not_mem_empty x)
  constructor
  · unfold openCell
    by_cases h1 : p ∈ g.open_fields
    · by_cases h2 : g.neighboring_mines p =
          ((g.iter_neighbors p).filter fun q => q ∈ g.flagged_fields).length
      · simp only [h1, h2, if_true, ite_true]
        apply inter_empty_of
        intro x hx hxf
        rw [(openList_fields g _).2.2.2] at hxf
        rcases openList_new_open_unflagged g _ x hx with hxo | hnf
        · exact hdis x hxo hxf
        · exact hnf hxf
      · simp only [h1, h2, if_true, if_false, ite_true, ite_false]
        exact h
    · by_cases h2 : g.lost = true ∨ p ∈ g.flagged_fields
      · simp only [h1, h2, if_true, if_false, ite_true, ite_false]
        exact h
      · by_cases h3 : p ∈ g.mines
        · simp only [h1, h2, h3, if_true, if_false, ite_true, ite_false]
          apply inter_empty_of
          intro x hx hxf
          rcases Finset.mem_insert.mp hx with rfl | hxo
          · push_neg at h2
            exact h2.2 hxf
          · exact hdis x hxo hxf
        · by_cases h4 : g.neighboring_mines p = 0
          · simp only [h1, h2, h3, h4, if_true, if_false, ite_true, ite_false]
            apply inter_empty_of
            intro x hx hxf
            rw [(openList_fields _ _).2.2.2] at hxf
            rcases openList_new_open_unflagged _ _ x hx with hxo | hnf
            · rcases Finset.mem_insert.mp hxo with rfl | hxo2
              · push_neg at h2
                exact h2.2 hxf
              · exact hdis x hxo2 hxf
            · exact hnf hxf
          · simp only [h1, h2, h3, h4, if_true, if_false, ite_true, ite_false]
            apply inter_empty_of
            intro x hx hxf
            rcases Finset.mem_insert.mp hx with rfl | hxo
            · push_neg at h2
              exact h2.2 hxf
            · exact hdis x hxo hxf
  · unfold Minesweeper.toggle_flag
    by_cases h1 : g.lost = true ∨ p ∈ g.open_fields
    · simp only [h1, if_true, ite_true]
      exact h
    · by_cases h2 : p ∈ g.flagged_fields
      · simp only [h1, h2, if_true, if_false, ite_true, ite_false]
        apply inter_empty_of
        intro x hx hxf
        exact hdis x hx (Finset.mem_of_mem_erase hxf)
      · simp only [h1, h2, if_true, if_false, ite_true, ite_false]
        apply inter_empty_of
        intro x hx hxf
        rcases Finset.mem_insert.mp hxf with rfl | hxf2
        · push_neg at h1
          exact h1.2 hx
        · exact hdis x hx hxf2

/-- C3: opening a fresh, unflagged, mined position while not lost returns
`Mine`, sets `lost`, and inserts the position into `opened`. -/
theorem C3_open_mine (g : Minesweeper) (p : Position) (hl : g.lost = false)
    (hmine : p ∈ g.mines) (ho : p ∉ g.open_fields) (hf : p ∉ g.flagged_fields) :
    (openCell g p).2 = some OpenResult.Mine ∧ (openCell g p).1.lost = true ∧
    p ∈ (openCell g p).1.open_fields := by
  unfold openCell
  simp [ho, hl, hf, hmine]

/-- C6: on boards of width and height at least 2, the neighbour list of an
in-bounds cell excludes the cell itself, contains only in-bounds positions,
has no duplicates, and has exactly 3, 5 or 8 elements according to whether
the cell is a corner, a non-corner edge cell, or interior. -/
theorem C6_neighbors_spec (g : Minesweeper) (p : Position)
    (hw : 2 ≤ g.width) (hh : 2 ≤ g.height) (hx : p.1 < g.width) (hy : p.2 < g.height) :
    p ∉ g.iter_neighbors p ∧
    (∀ q ∈ g.iter_neighbors p, q.1 < g.width ∧ q.2 < g.height) ∧
    (g.iter_neighbors p).Nodup ∧
    (CornerCell g p → (g.iter_neighbors p).length = 3) ∧
    (EdgeCell g p → (g.iter_neighbors p).length = 5) ∧
    (InteriorCell g p → (g.iter_neighbors p).length = 8) := by
  have key := length_iter_neighbors g p (by omega) (by omega) hx hy
  refine ⟨?_, ?_, iter_neighbors_nodup g p, ?_, ?_, ?_⟩
  · rw [Minesweeper.mem_iter_neighbors]
    simp
  · intro q hq
    rw [Minesweeper.mem_iter_neighbors] at hq
    omega
  · rintro ⟨hcx, hcy⟩
    have hA : min (p.1 + 1) (g.width - 1) + 1 - (max p.1 1 - 1) = 2 := by omega
    have hB : min (p.2 + 1) (g.height - 1) + 1 - (max p.2 1 - 1) = 2 := by omega
    rw [hA, hB] at key
    omega
  · rintro ⟨hb, hnc⟩
    unfold BoundaryCell at hb
    unfold CornerCell at hnc
    by_cases hcx : p.1 = 0 ∨ p.1 = g.width - 1
    · have hcy : ¬(p.2 = 0 ∨ p.2 = g.height - 1) := fun hcy => hnc ⟨hcx, hcy⟩
      push_neg at hcy
      have hA : min (p.1 + 1) (g.width - 1) + 1 - (max p.1 1 - 1) = 2 := by omega
      have hB : min (p.2 + 1) (g.height - 1) + 1 - (max p.2 1 - 1) = 3 := by omega
      rw [hA, hB] at key
      omega
    · have hcy : p.2 = 0 ∨ p.2 = g.height - 1 := by tauto
      push_neg at hcx
      have hA : min (p.1 + 1) (g.width - 1) + 1 - (max p.1 1 - 1) = 3 := by omega
      have hB : min (p.2 + 1) (g.height - 1) + 1 - (max p.2 1 - 1) = 2 := by omega
      rw [hA, hB] at key
      omega
  · intro hint
    unfold InteriorCell BoundaryCell at hint
    push_neg at hint
    have hA : min (p.1 + 1) (g.width - 1) + 1 - (max p.1 1 - 1) = 3 := by omega
    have hB : min (p.2 + 1) (g.height - 1) + 1 - (max p.2 1 - 1) = 3 := by omega
    rw [hA, hB] at key
    omega

/-- C7: when not lost, toggling a flag twice on an unopened position
restores the exact prior state; toggling on an opened position never adds it
to `flagged` (the flagged set is unchanged). -/
theorem C7_toggle_flag (g : Minesweeper) (p : Position) :
    (g.lost = false → p ∉ g.open_fields → (g.toggle_flag p).toggle_flag p = g) ∧
    (p ∈ g.open_fields → (g.toggle_flag p).flagged_fields = g.flagged_fields) := by
  constructor
  · intro hl ho
    by_cases hf : p ∈ g.flagged_fields
    · have h1 : g.toggle_flag p = { g with flagged_fields := g.flagged_fields.erase p } := by
        unfold Minesweeper.toggle_flag
        rw [if_neg (by simp [hl, ho]), if_pos hf]
      rw [h1]
      unfold Minesweeper.toggle_flag
      rw [if_neg (by simp [hl, ho]), if_neg (by simp)]
      simp [Finset.insert_erase hf]
    · have h1 : g.toggle_flag p = { g with flagged_fields := insert p g.flagged_fields } := by
        unfold Minesweeper.toggle_flag
        rw [if_neg (by simp [hl, ho]), if_neg hf]
      rw [h1]
      unfold Minesweeper.toggle_flag
      rw [if_neg (by simp [hl, ho]), if_pos (by simp)]
      simp [Finset.erase_insert hf]
  · intro ho
    unfold Minesweeper.toggle_flag
    rw [if_pos (Or.inr ho)]

/-- C4 (amended): opening a fresh, unflagged, non-mined, in-bounds cell with
zero neighbouring mines opens every cell reachable from it through a chain
of adjacent zero-count cells in which every cell after the start is neither
flagged nor already open. -/
theorem C4_flood_fill_reaches (g : Minesweeper) (p : Position)
    (hl : g.lost = false) (hx : p.1 < g.width) (hy : p.2 < g.height)
    (hm : p ∉ g.mines) (ho : p ∉ g.open_fields) (hf : p ∉ g.flagged_fields)
    (hz : g.neighboring_mines p = 0) :
    ∀ r, FloodReach g p r → r ∈ (openCell g p).1.open_fields := by
  have hstep : (openCell g p).1 =
      openList { g with open_fields := insert p g.open_fields } (g.iter_neighbors p) := by
    unfold openCell
    simp [ho, hl, hf, hm, hz]
  have hFlost :
      (openList { g with open_fields := insert p g.open_fields } (g.iter_neighbors p)).lost
        = false := by
    apply openList_lost_false
    · exact hl
    · intro q hq
      exact neighboring_mines_eq_zero.mp hz q hq
  have main : ∀ r, FloodReach g p r →
      r ∈ (openList { g with open_fields := insert p g.open_fields }
        (g.iter_neighbors p)).open_fields ∧ (r = p ∨ r ∉ g.open_fields) := by
    intro r hr
    induction hr with
    | refl =>
      constructor
      · exact openList_open_mono _ _ (Finset.mem_insert_self p g.open_fields)
      · exact Or.inl rfl
    | @step q r' hreach hzq hmem hrf hro ih =>
      obtain ⟨hqF, hq⟩ := ih
      refine ⟨?_, Or.inr hro⟩
      by_cases hqp : q = p
      · subst hqp
        exact openList_closure _ _ hFlost r' hmem hrf
      · have hqo : q ∉ g.open_fields := by
          rcases hq with rfl | hqo
          · exact absurd rfl hqp
          · exact hqo
        have hq1 : q ∉ insert p g.open_fields := by
          rw [Finset.mem_insert]
          rintro (rfl | hc)
          · exact hqp rfl
          · exact hqo hc
        exact openList_flood_closure _ _ hFlost q hqF hq1 hzq r' hmem hrf
  intro r hr
  rw [hstep]
  exact (main r hr).1

/-- C5: chord — with the board not lost, opening an already-open cell whose
neighbouring-mine count equals its flagged-neighbour count returns `none`,
and afterwards either every previously unflagged, unopened neighbour is in
`opened`, or the game has become lost. -/
theorem C5_chord (g : Minesweeper) (p : Position) (_hl : g.lost = false)
    (ho : p ∈ g.open_fields)
    (heq : g.neighboring_mines p =
      ((g.iter_neighbors p).filter fun q => q ∈ g.flagged_fields).length) :
    (openCell g p).2 = none ∧
    ((∀ r ∈ g.iter_neighbors p, r ∉ g.flagged_fields → r ∉ g.open_fields →
        r ∈ (openCell g p).1.open_fields) ∨ (openCell g p).1.lost = true) := by
  have hstep : openCell g p = (openList g (g.iter_neighbors p), none) := by
    unfold openCell
    simp [ho, heq]
  rw [hstep]
  refine ⟨rfl, ?_⟩
  by_cases hF : (openList g (g.iter_neighbors p)).lost = true
  · exact Or.inr hF
  · left
    intro r hr hrf _
    rw [Bool.not_eq_true] at hF
    exact openList_closure g _ hF r hr hrf

/-- C8: `open` terminates for any board and position: with fuel
`10·width·height + 9` — the unopened-cells-based measure bound — the
fuel-indexed run returns `some` and agrees with the recursive function. -/
theorem C8_open_terminates (g : Minesweeper) (p : Position)
    (hw : 1 ≤ g.width) (hh : 1 ≤ g.height) :
    openCellF (10 * (g.width * g.height) + 9) g p = some (openCell g p) := by
  apply openCellF_complete
  have hcard : g.clipRegion.card = g.width * g.height := by
    rw [Minesweeper.clipRegion, Finset.card_product, Finset.card_range, Finset.card_range,
      Nat.max_eq_left hw, Nat.max_eq_left hh]
  rw [hcard]

theorem placeMines_none (rnd : Nat → Position) (w h mc : Nat)
    (hr : ∀ n, (rnd n).1 < w ∧ (rnd n).2 < h) (hmc : w * h < mc) :
    ∀ fuel k (s : Finset Position), s ⊆ Finset.range w ×ˢ Finset.range h →
      placeMines rnd mc fuel k s = none := by
  intro fuel
  induction fuel with
  | zero =>
    intro k s hs
    have hcard : s.card ≤ w * h := by
      have := Finset.card_le_card hs
      rwa [Finset.card_product, Finset.card_range, Finset.card_range] at this
    simp only [placeMines]
    rw [if_pos (by omega)]
  | succ fuel ih =>
    intro k s hs
    have hcard : s.card ≤ w * h := by
      have := Finset.card_le_card hs
      rwa [Finset.card_product, Finset.card_range, Finset.card_range] at this
    simp only [placeMines]
    rw [if_pos (by omega)]
    apply ih
    intro x hx
    rcases Finset.mem_insert.mp hx with rfl | hx
    · rw [Finset.mem_product, Finset.mem_range, Finset.mem_range]
      exact hr k
    · exact hs hx

/-- C9: with `mineCount` exceeding `width·height` and a random source that
only yields in-range positions, construction never returns: the placement
loop is still running whatever fuel it is given. -/
theorem C9_new_never_returns (rnd : Nat → Position) (w h mc : Nat)
    (_hw : 1 ≤ w) (_hh : 1 ≤ h)
    (hr : ∀ n, (rnd n).1 < w ∧ (rnd n).2 < h) (hmc : w * h < mc) :
    ∀ fuel, Minesweeper.new rnd w h mc fuel = none := by
  intro fuel
  unfold Minesweeper.new
  rw [placeMines_none rnd w h mc hr hmc fuel 0 ∅ (by simp)]
  rfl

/-- C10: opening an out-of-bounds position on a non-lost board whose mines
all lie in bounds does not fault (the clipped ranges are well defined),
inserts the position into `opened`, returns `NoMine`, and cannot lose. -/
theorem C10_open_out_of_bounds (g : Minesweeper) (p : Position)
    (_hw : 1 ≤ g.width) (_hh : 1 ≤ g.height) (hl : g.lost = false)
    (hob : g.width ≤ p.1 ∨ g.height ≤ p.2)
    (ho : p ∉ g.open_fields) (hf : p ∉ g.flagged_fields)
    (hmb : ∀ q ∈ g.mines, q.1 < g.width ∧ q.2 < g.height) :
    p ∈ (openCell g p).1.open_fields ∧
    (∃ c, (openCell g p).2 = some (OpenResult.NoMine c)) ∧
    (openCell g p).1.lost = false := by
  have hm : p ∉ g.mines := by
    intro hc
    have := hmb p hc
    omega
  by_cases hz : g.neighboring_mines p = 0
  · have hstep : openCell g p =
        (openList { g with open_fields := insert p g.open_fields } (g.iter_neighbors p),
         some (OpenResult.NoMine 0)) := by
      unfold openCell
      simp [ho, hl, hf, hm, hz]
    rw [hstep]
    refine ⟨?_, ⟨0, rfl⟩, ?_⟩
    · exact openList_open_mono _ _ (Finset.mem_insert_self p g.open_fields)
    · apply openList_lost_false
      · exact hl
      · intro q hq
        exact neighboring_mines_eq_zero.mp hz q hq
  · have hstep : openCell g p =
        ({ g with open_fields := insert p g.open_fields },
         some (OpenResult.NoMine (g.neighboring_mines p))) := by
      unfold openCell
      simp [ho, hl, hf, hm, hz]
    rw [hstep]
    exact ⟨Finset.mem_insert_self p g.open_fields, ⟨_, rfl⟩, hl⟩

/-- C4 as stated fails on `bFlagBlock`: `(2,0)` is connected to `(0,0)` by a
chain of adjacent zero-count cells and every hypothesis of the claim holds
at `(0,0)`, yet after `open (0,0)` the cell `(2,0)` is not in `opened` — the
flag on `(1,0)` stops the cascade. -/
theorem C4_counterexample :
    bFlagBlock.lost = false ∧
    (0 : Nat) < bFlagBlock.width ∧ (0 : Nat) < bFlagBlock.height ∧
    ((0, 0) : Position) ∉ bFlagBlock.mines ∧
    ((0, 0) : Position) ∉ bFlagBlock.open_fields ∧
    ((0, 0) : Position) ∉ bFlagBlock.flagged_fields ∧
    bFlagBlock.neighboring_mines (0, 0) = 0 ∧
    ZeroChain bFlagBlock (0, 0) (2, 0) ∧
    ((2, 0) : Position) ∉ (openCell bFlagBlock (0, 0)).1.open_fields := by
  have h1 : openCellF 40 bFlagBlock (0, 0) =
      some ({ width := 3, height := 1, open_fields := {(0, 0)}, mines := ∅,
              flagged_fields := {(1, 0)}, lost := false }, some (OpenResult.NoMine 0)) := by
    decide
  have h2 : openCellF 40 bFlagBlock (0, 0) = some (openCell bFlagBlock (0, 0)) :=
    openCellF_complete 40 bFlagBlock (0, 0) (by decide)
  have heval := Option.some.inj (h2.symm.trans h1)
  refine ⟨by decide, by decide, by decide, by decide, by decide, by decide, by decide, ?_, ?_⟩
  · exact @ZeroChain.step bFlagBlock (0, 0) (1, 0) (2, 0)
      (@ZeroChain.step bFlagBlock (0, 0) (0, 0) (1, 0) ZeroChain.refl
        (by decide) (by decide) (by decide))
      (by decide) (by decide) (by decide)
  · rw [heval]
    decide

/-- Witness for C1 on a concrete lost board, at a position that is already
open (so the chord branch runs). -/
theorem C1_witness :
    bLost.lost = true ∧ openCell bLost (0, 0) = (bLost, none) ∧
    bLost.toggle_flag (0, 0) = bLost := by
  refine ⟨by decide, ?_, ?_⟩
  · exact (C1_lost_freezes_state bLost (0, 0) (by decide)).1
  · exact (C1_lost_freezes_state bLost (0, 0) (by decide)).2

/-- Witness for C2 on a fresh board. -/
theorem C2_witness :
    bFresh.open_fields ∩ bFresh.flagged_fields = ∅ ∧
    (openCell bFresh (1, 1)).1.open_fields ∩ (openCell bFresh (1, 1)).1.flagged_fields = ∅ ∧
    (bFresh.toggle_flag (1, 1)).open_fields ∩ (bFresh.toggle_flag (1, 1)).flagged_fields = ∅ := by
  refine ⟨by decide, ?_, ?_⟩
  · exact (C2_disjoint_preserved bFresh (1, 1) (by decide)).1
  · exact (C2_disjoint_preserved bFresh (1, 1) (by decide)).2

/-- Witness for C3: opening the mine of `bFresh`. -/
theorem C3_witness :
    bFresh.lost = false ∧ ((0, 0) : Position) ∈ bFresh.mines ∧
    ((0, 0) : Position) ∉ bFresh.open_fields ∧ ((0, 0) : Position) ∉ bFresh.flagged_fields ∧
    (openCell bFresh (0, 0)).2 = some OpenResult.Mine ∧
    (openCell bFresh (0, 0)).1.lost = true ∧
    (0, 0) ∈ (openCell bFresh (0, 0)).1.open_fields := by
  have h := C3_open_mine bFresh (0, 0) (by decide) (by decide) (by decide) (by decide)
  exact ⟨by decide, by decide, by decide, by decide, h.1, h.2.1, h.2.2⟩

/-- Witness for C4 (amended) on the 1×1 empty board, with the trivial
chain. -/
theorem C4_witness :
    bTiny.lost = false ∧ (0 : Nat) < bTiny.width ∧ (0 : Nat) < bTiny.height ∧
    ((0, 0) : Position) ∉ bTiny.mines ∧ ((0, 0) : Position) ∉ bTiny.open_fields ∧
    ((0, 0) : Position) ∉ bTiny.flagged_fields ∧ bTiny.neighboring_mines (0, 0) = 0 ∧
    (0, 0) ∈ (openCell bTiny (0, 0)).1.open_fields := by
  refine ⟨by decide, by decide, by decide, by decide, by decide, by decide, by decide, ?_⟩
  exact C4_flood_fill_reaches bTiny (0, 0) (by decide) (by decide) (by decide) (by decide)
    (by decide) (by decide) (by decide) (0, 0) FloodReach.refl

/-- Witness for C5: a chord on `bChord` with both counts zero. -/
theorem C5_witness :
    bChord.lost = false ∧ ((0, 0) : Position) ∈ bChord.open_fields ∧
    bChord.neighboring_mines (0, 0) =
      ((bChord.iter_neighbors (0, 0)).filter fun q => q ∈ bChord.flagged_fields).length ∧
    (openCell bChord (0, 0)).2 = none ∧
    ((∀ r ∈ bChord.iter_neighbors (0, 0), r ∉ bChord.flagged_fields →
        r ∉ bChord.open_fields → r ∈ (openCell bChord (0, 0)).1.open_fields) ∨
     (openCell bChord (0, 0)).1.lost = true) := by
  have h := C5_chord bChord (0, 0) (by decide) (by decide) (by decide)
  exact ⟨by decide, by decide, by decide, h.1, h.2⟩

/-- Witness for C6 at the interior cell of a 3×3 board. -/
theorem C6_witness :
    2 ≤ bNine.width ∧ 2 ≤ bNine.height ∧
    ((1, 1) : Position).1 < bNine.width ∧ ((1, 1) : Position).2 < bNine.height ∧
    ((1, 1) : Position) ∉ bNine.iter_neighbors (1, 1) ∧
    (bNine.iter_neighbors (1, 1)).length = 8 := by
  have h := C6_neighbors_spec bNine (1, 1) (by decide) (by decide) (by decide) (by decide)
  refine ⟨by decide, by decide, by decide, by decide, h.1, ?_⟩
  exact h.2.2.2.2.2 (by unfold InteriorCell BoundaryCell; decide)

/-- Witness for C7 on a fresh board and an unopened position. -/
theorem C7_witness :
    bFresh.lost = false ∧ ((0, 1) : Position) ∉ bFresh.open_fields ∧
    (bFresh.toggle_flag (0, 1)).toggle_flag (0, 1) = bFresh := by
  refine ⟨by decide, by decide, ?_⟩
  exact (C7_toggle_flag bFresh (0, 1)).1 (by decide) (by decide)

/-- Witness for C8 on the 1×1 board. -/
theorem C8_witness :
    1 ≤ bTiny.width ∧ 1 ≤ bTiny.height ∧
    openCellF (10 * (bTiny.width * bTiny.height) + 9) bTiny (0, 0) =
      some (openCell bTiny (0, 0)) := by
  refine ⟨by decide, by decide, ?_⟩
  exact C8_open_terminates bTiny (0, 0) (by decide) (by decide)

/-- Witness for C9: a 1×1 board asked for 2 mines, with the constant random
stream, never finishes construction (shown here at fuel 7). -/
theorem C9_witness :
    1 * 1 < 2 ∧
    Minesweeper.new (fun _ => ((0, 0) : Position)) 1 1 2 7 = none := by
  refine ⟨by decide, ?_⟩
  exact C9_new_never_returns (fun _ => ((0, 0) : Position)) 1 1 2 (by decide) (by decide)
    (fun _ => ⟨Nat.zero_lt_one, Nat.zero_lt_one⟩) (by decide) 7

/-- Witness for C10: opening the out-of-bounds `(5,0)` on the mined 1×1
board. -/
theorem C10_witness :
    1 ≤ bOut.width ∧ 1 ≤ bOut.height ∧ bOut.lost = false ∧
    (bOut.width ≤ ((5, 0) : Position).1 ∨ bOut.height ≤ ((5, 0) : Position).2) ∧
    ((5, 0) : Position) ∉ bOut.open_fields ∧ ((5, 0) : Position) ∉ bOut.flagged_fields ∧
    (∀ q ∈ bOut.mines, q.1 < bOut.width ∧ q.2 < bOut.height) ∧
    (5, 0) ∈ (openCell bOut (5, 0)).1.open_fields ∧
    (∃ c, (openCell bOut (5, 0)).2 = some (OpenResult.NoMine c)) ∧
    (openCell bOut (5, 0)).1.lost = false := by
  have h := C10_open_out_of_bounds bOut (5, 0) (by decide) (by decide) (by decide)
    (Or.inl (by decide)) (by decide) (by decide) (by decide)
  exact ⟨by decide, by decide, by decide, Or.inl (by decide), by decide, by decide,
    by decide, h.1, h.2.1, h.2.2⟩
